import Mathlib

/-!
Shallow embedding of `imagen/dataviews.py` (classes `DataView` and
`IndexedView`) and verification of its specification.

Conventions of the embedding:
* Python data snapshots are values of an abstract type `α`; index keys are
  modelled as `Int` (the index feature is an arbitrary orderable value,
  by default time).
* Python runtime errors (`ValueError`, `IndexError`, `TypeError`,
  `NameError`) are modelled with `Except PyErr`.  Comparison of `None`
  with a number raises `TypeError` (Python 3 semantics).
* `data.copy()` is modelled as the identity on immutable model values in
  the pure functions; aliasing questions are treated separately with an
  explicit heap model (`recordHeap`), and fallible copying with `recordE`.
-/

namespace Imagen

/-- Python runtime errors raised by the code paths modelled here. -/
inductive PyErr where
  /-- `raise ValueError` in `_bisect_index`, and `list.index` misses. -/
  | valueError
  /-- list indexing out of range, e.g. `self._data[-1]` on an empty list. -/
  | indexError
  /-- Python 3 `TypeError` from ordering `None` against a number. -/
  | typeError
  /-- `NameError`: the given name is unbound at the point of use. -/
  | nameError (n : String)
  deriving DecidableEq

/-- Python `list.insert(i, v)`: inserts `v` before position `i`, clamping
`i` into `[0, len]` (an index past the end appends). -/
def pyInsert (l : List α) (i : Nat) (v : α) : List α :=
  l.take i ++ v :: l.drop i

/-- Python list slicing `l[s:t]` with step `None`; `None` endpoints mean
"from the beginning" / "to the end".  The indices produced by
`bisect_left` are already in `[0, len]`, so no negative-index handling is
needed. -/
def pySliceExtract (l : List α) (s t : Option Nat) : List α :=
  (l.take (t.getD l.length)).drop (s.getD 0)

/-- The loop of `bisect.bisect_left(a, x)` (stdlib binary search, called
with `lo = 0`, `hi = len(a)`).  The extra `fuel` argument only bounds the
recursion depth structurally; `hi - lo` strictly decreases at every
iteration, so any `fuel ≥ hi - lo` computes the stdlib result
(`blLoop_fuel_irrel`). -/
def blLoop (a : List Int) (x : Int) : Nat → Nat → Nat → Nat
  | 0, lo, _ => lo
  | fuel + 1, lo, hi =>
    if lo < hi then
      let mid := (lo + hi) / 2
      if a.getD mid 0 < x then blLoop a x fuel (mid + 1) hi
      else blLoop a x fuel lo mid
    else lo

/-- `bisect.bisect_left(a, x)`: leftmost insertion point for `x` in `a`. -/
def bisect_left (a : List Int) (x : Int) : Nat :=
  blLoop a x a.length 0 a.length

/-- One insertion into an `OrderedDict` association list: an existing key
keeps its position and gets the new value; a new key is appended. -/
def odInsert (m : List (Int × α)) (k : Int) (v : α) : List (Int × α) :=
  if m.any (fun p => p.1 == k) then
    m.map (fun p => if p.1 == k then (k, v) else p)
  else m ++ [(k, v)]

/-- `OrderedDict(pairs)`: build an ordered mapping from a pair sequence,
later duplicates overriding earlier ones in place. -/
def odOfPairs (pairs : List (Int × α)) : List (Int × α) :=
  pairs.foldl (fun m p => odInsert m p.1 p.2) []

/-- State of a `DataView`: the `bounds` attribute plus the single data
snapshot `_data`, which `__init__` sets to `None`. -/
structure DataView (α β : Type) where
  bounds : β
  _data : Option α

/-- `DataView.__init__(bounds)`: stores the bounds and sets `_data = None`. -/
def DataView.init (b : β) : DataView α β :=
  ⟨b, none⟩

/-- `DataView.record(data)`: replaces the single stored snapshot. -/
def DataView.record (s : DataView α β) (d : α) : DataView α β :=
  { s with _data := some d }

/-- `DataView.sample(coords)`.  The body is
`return data[self._coords2matrixidx(coords, data)]`, but no name `data`
is bound in that scope (the snapshot is stored in `self._data`), so every
call raises `NameError: name 'data' is not defined` before any lookup
happens.  The mapper and indexing parameters are kept to mirror the
intended signature. -/
def DataView.sample (_s : DataView α β) (_mapper : γ → α → ι)
    (_index : α → ι → δ) (_coords : γ) : Except PyErr δ :=
  .error (.nameError "data")

/-- `DataView.view()`: returns the `(self._data, self.bounds)` pair;
on a fresh container this is `(None, bounds)`, no error is raised. -/
def DataView.view (s : DataView α β) : Option α × β :=
  (s._data, s.bounds)

/-- State of an `IndexedView`: bounds, the `indexed_ascending` flag, and
the two parallel sequences `_data` and `_index_labels`. -/
structure IndexedView (α β : Type) where
  bounds : β
  indexed_ascending : Bool
  _data : List α
  _index_labels : List Int

/-- `IndexedView.__init__(bounds)`: empty parallel sequences. -/
def IndexedView.init (b : β) (asc : Bool) : IndexedView α β :=
  ⟨b, asc, [], []⟩

/-- `IndexedView._bisect_insert(data, index_value)`: bisect the sorted
index for the leftmost insertion point, then insert the (copied) data and
the index value at that position in both parallel lists. -/
def IndexedView.bisectInsert (s : IndexedView α β) (d : α) (x : Int) :
    IndexedView α β :=
  let insert_index := bisect_left s._index_labels x
  { s with _data := pyInsert s._data insert_index d,
           _index_labels := pyInsert s._index_labels insert_index x }

/-- `IndexedView.record(data, index_value)`: sorted insertion in ascending
mode, append in unordered mode.  `data.copy()` is the identity on the
immutable model values used here (see `recordHeap` for the aliasing model
and `recordE` for the fallible-copy model). -/
def IndexedView.record (s : IndexedView α β) (d : α) (x : Int) :
    IndexedView α β :=
  if s.indexed_ascending then s.bisectInsert d x
  else { s with _data := s._data ++ [d], _index_labels := s._index_labels ++ [x] }

/-- `IndexedView._bisect_index(index_value)`: leftmost position whose
label equals the value, else `ValueError`.  The Python `and` is
short-circuiting, so the label access only happens when `i != len`. -/
def IndexedView.bisectIndex (s : IndexedView α β) (x : Int) :
    Except PyErr Nat :=
  let i := bisect_left s._index_labels x
  if i ≠ s._index_labels.length ∧ s._index_labels.getD i 0 = x then .ok i
  else .error .valueError

/-- `self._index_labels.index(v)`: index of the first occurrence, raising
`ValueError` when absent (unordered-mode point lookup). -/
def listIndex (l : List Int) (x : Int) : Except PyErr Nat :=
  match l.findIdx? (fun y => y == x) with
  | some i => .ok i
  | none => .error .valueError

/-- `IndexedView._bisect_slice(start, stop, step)` with `step = None`:
bisect each non-`None` endpoint, slice both parallel lists with the
resulting indices, and build the `map_type` (an `OrderedDict`) from the
zipped pairs. -/
def IndexedView.bisectSlice (s : IndexedView α β) (start stop : Option Int) :
    List (Int × α) :=
  let start_ind := start.map (fun v => bisect_left s._index_labels v)
  let stop_ind := stop.map (fun v => bisect_left s._index_labels v)
  odOfPairs ((pySliceExtract s._index_labels start_ind stop_ind).zip
             (pySliceExtract s._data start_ind stop_ind))

/-- The unordered (`not indexed_ascending`) slice branch of
`IndexedView.__getitem__`.  It first evaluates `(start < stop)`, which in
Python 3 raises `TypeError` if either endpoint is `None`; otherwise the
filtering comprehension
`[pair for pair in zip(self._index_labels, self._data) if (min_val < l < max_val)]`
evaluates its condition on the first element, and the name `l` is unbound
there (the loop variable is `pair`), so a nonempty container raises
`NameError: name 'l' is not defined`; an empty container produces the
empty mapping. -/
def IndexedView.unorderedSlice (s : IndexedView α β) (start stop : Option Int) :
    Except PyErr (List (Int × α)) :=
  match start, stop with
  | some a, some b =>
    let _min_max := if a < b then (a, b) else (b, a)
    if (s._index_labels.zip s._data).isEmpty then .ok (odOfPairs [])
    else .error (.nameError "l")
  | _, _ => .error .typeError

/-- Argument of `IndexedView.__getitem__`: either a plain key or a slice
(with step `None`, the only case the specification covers; the source
threads the step unchanged into the list slice). -/
inductive PyIndex where
  | key (k : Int)
  | slice (start stop : Option Int)

/-- `IndexedView.__getitem__`: point lookups return one snapshot
(`Sum.inl`); slices return an ordered mapping (`Sum.inr`). -/
def IndexedView.getItem (s : IndexedView α β) :
    PyIndex → Except PyErr (α ⊕ List (Int × α))
  | .key k => do
    let i ← if s.indexed_ascending then s.bisectIndex k
            else listIndex s._index_labels k
    if h : i < s._data.length then .ok (.inl (s._data.get ⟨i, h⟩))
    else .error .indexError
  | .slice a b =>
    if s.indexed_ascending then .ok (.inr (s.bisectSlice a b))
    else (s.unorderedSlice a b).map .inr

/-- `IndexedView.sample(coords)`: one value per stored snapshot, each at
the index computed by `_coords2matrixidx(coords, data)` (abstract here,
supplied by subclasses; it sees the snapshot itself, hence its shape). -/
def IndexedView.sample (s : IndexedView α β) (mapper : γ → α → ι)
    (index : α → ι → δ) (coords : γ) : List δ :=
  s._data.map (fun d => index d (mapper coords d))

/-- `IndexedView.view()`: `(self._data[-1], self.bounds)`; Python raises
`IndexError` on `[-1]` when the list is empty. -/
def IndexedView.view (s : IndexedView α β) : Except PyErr (α × β) :=
  match s._data.getLast? with
  | some d => .ok (d, s.bounds)
  | none => .error .indexError

/-- `IndexedView.__len__` (after `__init__`, `_index_labels` exists). -/
def IndexedView.len (s : IndexedView α β) : Nat :=
  s._index_labels.length

/-- A whole sequence of `record` calls, in order. -/
def IndexedView.recordAll (s : IndexedView α β) (ops : List (α × Int)) :
    IndexedView α β :=
  ops.foldl (fun st p => st.record p.1 p.2) s

/-- `IndexedView.record` with a fallible `data.copy()`; `copyd` is the
result of evaluating `data.copy()`.  In both branches of the source the
copy is evaluated before either list is mutated (`list.insert` and
`list.append` on valid arguments cannot fail), so a raised error leaves
both parallel sequences untouched. -/
def IndexedView.recordE (s : IndexedView α β) (copyd : Except PyErr α)
    (x : Int) : Except PyErr (IndexedView α β) :=
  if s.indexed_ascending then
    let i := bisect_left s._index_labels x
    match copyd with
    | .error e => .error e
    | .ok c => .ok { s with _data := pyInsert s._data i c,
                            _index_labels := pyInsert s._index_labels i x }
  else
    match copyd with
    | .error e => .error e
    | .ok c => .ok { s with _data := s._data ++ [c],
                            _index_labels := s._index_labels ++ [x] }

/-- A heap of Python objects: cell `i` holds the current value of the
object at address `i`. -/
abbrev Heap (α : Type) := List α

/-- Mutate the object at address `addr` in place. -/
def heapSet (h : Heap α) (addr : Nat) (v : α) : Heap α :=
  h.set addr v

/-- State of an `IndexedView` in the aliasing model: `_data` holds heap
addresses of the snapshots owned by the container. -/
structure IndexedViewRef (β : Type) where
  bounds : β
  indexed_ascending : Bool
  _data : List Nat
  _index_labels : List Int

/-- `IndexedView.record(data, index_value)` in the aliasing model:
`data.copy()` allocates a fresh cell (address `h.length`) holding the
current value of the caller's object `addr`, and the container stores the
fresh address — sorted insertion or append exactly as in `record`. -/
def IndexedView.recordHeap [Inhabited α] (h : Heap α) (s : IndexedViewRef β)
    (addr : Nat) (x : Int) : Heap α × IndexedViewRef β :=
  let copyAddr := h.length
  let h2 := h ++ [h.getD addr default]
  if s.indexed_ascending then
    let i := bisect_left s._index_labels x
    (h2, { s with _data := pyInsert s._data i copyAddr,
                  _index_labels := pyInsert s._index_labels i x })
  else
    (h2, { s with _data := s._data ++ [copyAddr],
                  _index_labels := s._index_labels ++ [x] })

/-- The length invariant: the parallel sequences stay aligned. -/
def lenInv (s : IndexedView α β) : Prop :=
  s._data.length = s._index_labels.length

/-- The order invariant of ascending mode: `_index_labels` is
non-decreasing. -/
def sortedInv (s : IndexedView α β) : Prop :=
  s._index_labels.Sorted (· ≤ ·)

/-- Lower-bound test of a slice: `none` means "from the beginning". -/
def lbOk (a : Option Int) (k : Int) : Bool :=
  match a with
  | none => true
  | some v => decide (v ≤ k)

/-- Upper-bound test of a slice: `none` means "to the end". -/
def ubOk (b : Option Int) (k : Int) : Bool :=
  match b with
  | none => true
  | some v => decide (k < v)

/-- Number of leading elements strictly below `x`: on a sorted list this
is exactly the leftmost insertion point `bisect_left` computes. -/
def lowerLen (a : List Int) (x : Int) : Nat :=
  (a.takeWhile (fun y => decide (y < x))).length

/-- The natural start index a slice lower bound denotes on a sorted list:
`none` means position `0`. -/
def natLB (a : Option Int) (L : List Int) : Nat :=
  match a with
  | none => 0
  | some v => lowerLen L v

/-- The natural stop index a slice upper bound denotes on a sorted list:
`none` means the end of the list. -/
def natUB (b : Option Int) (L : List Int) : Nat :=
  match b with
  | none => L.length
  | some v => lowerLen L v

theorem lowerLen_le (a : List Int) (x : Int) : lowerLen a x ≤ a.length :=
  (List.takeWhile_prefix _).sublist.length_le

theorem getD_lt_of_lt_lowerLen (a : List Int) (x : Int) :
    ∀ (j : Nat), j < lowerLen a x → a.getD j 0 < x := by
  induction a with
  | nil => intro j h; simp [lowerLen] at h
  | cons b t ih =>
    intro j h
    by_cases hb : b < x
    · cases j with
      | zero => simpa using hb
      | succ j =>
        rw [List.getD_cons_succ]
        apply ih
        simp [lowerLen, List.takeWhile_cons, hb] at h
        simp [lowerLen]
        omega
    · exfalso
      simp [lowerLen, List.takeWhile_cons, hb] at h

theorem le_getD_of_lowerLen_le (a : List Int) (hs : a.Sorted (· ≤ ·)) (x : Int) :
    ∀ (j : Nat), lowerLen a x ≤ j → j < a.length → x ≤ a.getD j 0 := by
  induction a with
  | nil => intro j _ h; simp at h
  | cons b t ih =>
    intro j hle hlt
    rw [List.sorted_cons] at hs
    by_cases hb : b < x
    · have hl : lowerLen (b :: t) x = lowerLen t x + 1 := by
        simp [lowerLen, List.takeWhile_cons, hb]
      cases j with
      | zero => omega
      | succ j =>
        rw [List.getD_cons_succ]
        exact ih hs.2 j (by omega) (by simpa using hlt)
    · push_neg at hb
      cases j with
      | zero => simpa using hb
      | succ j =>
        rw [List.getD_cons_succ]
        have hj : j < t.length := by simpa using hlt
        have hbt : b ≤ t.getD j 0 := by
          rw [List.getD_eq_getElem _ _ hj]
          exact hs.1 _ (List.getElem_mem _)
        omega

theorem blLoop_le (a : List Int) (x : Int) :
    ∀ (fuel lo hi : Nat), lo ≤ hi → blLoop a x fuel lo hi ≤ hi := by
  intro fuel
  induction fuel with
  | zero => intro lo hi h; simpa [blLoop] using h
  | succ fuel ih =>
    intro lo hi h
    simp only [blLoop]
    by_cases hlt : lo < hi
    · simp only [if_pos hlt]
      by_cases hmid : a.getD ((lo + hi) / 2) 0 < x
      · simp only [if_pos hmid]
        exact ih _ _ (by omega)
      · simp only [if_neg hmid]
        exact le_trans (ih _ _ (by omega)) (by omega)
    · simp only [if_neg hlt]
      exact h

theorem bisect_left_le_length (a : List Int) (x : Int) :
    bisect_left a x ≤ a.length :=
  blLoop_le a x a.length 0 a.length (Nat.zero_le _)

theorem blLoop_eq (a : List Int) (x : Int) (hs : a.Sorted (· ≤ ·)) :
    ∀ (fuel lo hi : Nat), hi ≤ a.length → lo ≤ lowerLen a x →
      lowerLen a x ≤ hi → hi - lo ≤ fuel →
      blLoop a x fuel lo hi = lowerLen a x := by
  intro fuel
  induction fuel with
  | zero =>
    intro lo hi _ h1 h2 h3
    simp only [blLoop]
    omega
  | succ fuel ih =>
    intro lo hi hhi h1 h2 h3
    simp only [blLoop]
    by_cases hlt : lo < hi
    · simp only [if_pos hlt]
      by_cases hmid : a.getD ((lo + hi) / 2) 0 < x
      · simp only [if_pos hmid]
        have hmlt : (lo + hi) / 2 < lowerLen a x := by
          by_contra hcon
          push_neg at hcon
          have := le_getD_of_lowerLen_le a hs x ((lo + hi) / 2) hcon (by omega)
          omega
        exact ih _ _ hhi (by omega) h2 (by omega)
      · simp only [if_neg hmid]
        have hmge : lowerLen a x ≤ (lo + hi) / 2 := by
          by_contra hcon
          push_neg at hcon
          exact hmid (getD_lt_of_lt_lowerLen a x _ hcon)
        exact ih _ _ (by omega) h1 hmge (by omega)
    · simp only [if_neg hlt]
      omega

/-- On a sorted list, `bisect_left` computes the number of elements
strictly below `x`, i.e. the leftmost insertion point. -/
theorem bisect_left_sorted (a : List Int) (x : Int) (hs : a.Sorted (· ≤ ·)) :
    bisect_left a x = lowerLen a x :=
  blLoop_eq a x hs a.length 0 a.length (le_refl _) (Nat.zero_le _)
    (lowerLen_le a x) (by omega)

theorem take_lowerLen (a : List Int) (x : Int) :
    a.take (lowerLen a x) = a.takeWhile (fun y => decide (y < x)) :=
  (List.prefix_iff_eq_take.mp (List.takeWhile_prefix _)).symm

theorem drop_lowerLen (a : List Int) (x : Int) :
    a.drop (lowerLen a x) = a.dropWhile (fun y => decide (y < x)) := by
  have h2 : a.drop (lowerLen a x) =
      (a.takeWhile (fun y => decide (y < x)) ++
        a.dropWhile (fun y => decide (y < x))).drop (lowerLen a x) := by
    rw [List.takeWhile_append_dropWhile]
  rw [h2]
  exact List.drop_left _ _

theorem pyInsert_length (l : List α) (i : Nat) (v : α) :
    (pyInsert l i v).length = l.length + 1 := by
  simp [pyInsert]
  omega

/-- Inserting `x` at position `lowerLen a x` keeps a sorted list sorted. -/
theorem sorted_insort (x : Int) (a : List Int) (hs : a.Sorted (· ≤ ·)) :
    (pyInsert a (lowerLen a x) x).Sorted (· ≤ ·) := by
  rw [pyInsert, take_lowerLen, drop_lowerLen]
  induction a with
  | nil => simp
  | cons b t ih =>
    rw [List.sorted_cons] at hs
    by_cases hb : b < x
    · simp only [List.takeWhile_cons, List.dropWhile_cons, decide_eq_true hb,
        if_true, List.cons_append]
      rw [List.sorted_cons]
      refine ⟨?_, ih hs.2⟩
      intro y hy
      rcases List.mem_append.mp hy with h1 | h2
      · exact hs.1 y ((List.takeWhile_sublist _).mem h1)
      · rcases List.mem_cons.mp h2 with rfl | h3
        · omega
        · exact hs.1 y ((List.dropWhile_sublist _).mem h3)
    · simp only [List.takeWhile_cons, List.dropWhile_cons, decide_eq_false hb,
        Bool.false_eq_true, if_false, List.nil_append]
      rw [List.sorted_cons]
      push_neg at hb
      refine ⟨?_, List.sorted_cons.mpr hs⟩
      intro y hy
      rcases List.mem_cons.mp hy with rfl | h3
      · exact hb
      · have := hs.1 y h3
        omega

theorem record_keeps_flag (s : IndexedView α β) (d : α) (x : Int) :
    (s.record d x).indexed_ascending = s.indexed_ascending := by
  rw [IndexedView.record]
  split <;> rfl

theorem record_lenInv (s : IndexedView α β) (d : α) (x : Int)
    (h : lenInv s) : lenInv (s.record d x) := by
  rw [lenInv] at h ⊢
  rw [IndexedView.record]
  split
  · simp [IndexedView.bisectInsert, pyInsert_length, h]
  · simp [h]

theorem record_sortedInv (s : IndexedView α β) (d : α) (x : Int)
    (hasc : s.indexed_ascending = true) (h : sortedInv s) :
    sortedInv (s.record d x) := by
  rw [IndexedView.record, if_pos hasc]
  rw [sortedInv] at h ⊢
  show (pyInsert s._index_labels (bisect_left s._index_labels x) x).Sorted _
  rw [bisect_left_sorted _ _ h]
  exact sorted_insort x _ h

theorem recordAll_keeps_flag (ops : List (α × Int)) :
    ∀ (s : IndexedView α β),
      (s.recordAll ops).indexed_ascending = s.indexed_ascending := by
  induction ops with
  | nil => intro s; rfl
  | cons p ops ih =>
    intro s
    show ((s.record p.1 p.2).recordAll ops).indexed_ascending = _
    rw [ih, record_keeps_flag]

theorem recordAll_lenInv (ops : List (α × Int)) :
    ∀ (s : IndexedView α β), lenInv s → lenInv (s.recordAll ops) := by
  induction ops with
  | nil => intro s h; exact h
  | cons p ops ih =>
    intro s h
    exact ih _ (record_lenInv s p.1 p.2 h)

theorem recordAll_sortedInv (ops : List (α × Int)) :
    ∀ (s : IndexedView α β), s.indexed_ascending = true → sortedInv s →
      sortedInv (s.recordAll ops) := by
  induction ops with
  | nil => intro s _ h; exact h
  | cons p ops ih =>
    intro s hasc h
    exact ih _ (by rw [record_keeps_flag]; exact hasc)
      (record_sortedInv s p.1 p.2 hasc h)

/-- C1: for every sequence of `record(data_i, key_i)` calls on a container
constructed with `indexed_ascending = True`: after all insertions
`_index_labels` is non-decreasing; after every prefix of the calls
`len(_data) = len(_index_labels)`; and each ascending-mode `record` from a
sorted state inserts both entries at position
`bisect_left(_index_labels, k)`, which lies at or before every existing
occurrence of an equal key, so ties are inserted at the leftmost position,
before existing equal keys. -/
theorem ascending_record_invariants (b : β) (ops : List (α × Int)) :
    sortedInv ((IndexedView.init b true (α := α)).recordAll ops) ∧
    (∀ pre, pre <+: ops →
      lenInv ((IndexedView.init b true (α := α)).recordAll pre)) ∧
    (∀ (s : IndexedView α β) (d : α) (k : Int),
      s.indexed_ascending = true → sortedInv s →
      ((s.record d k)._index_labels =
        pyInsert s._index_labels (bisect_left s._index_labels k) k ∧
       (s.record d k)._data =
        pyInsert s._data (bisect_left s._index_labels k) d) ∧
      ∀ j, j < s._index_labels.length → s._index_labels.getD j 0 = k →
        bisect_left s._index_labels k ≤ j) := by
  refine ⟨?_, ?_, ?_⟩
  · exact recordAll_sortedInv ops _ rfl List.sorted_nil
  · intro pre _
    exact recordAll_lenInv pre _ rfl
  · intro s d k hasc hsort
    constructor
    · rw [IndexedView.record, if_pos hasc]
      exact ⟨rfl, rfl⟩
    · intro j hj hk
      rw [bisect_left_sorted _ _ hsort]
      by_contra hcon
      push_neg at hcon
      have := getD_lt_of_lt_lowerLen s._index_labels k j hcon
      omega

/-- Witness for `ascending_record_invariants` at concrete inputs. -/
theorem ascending_record_invariants_witness :
    sortedInv ((IndexedView.init (0 : Int) true (α := Int)).recordAll
      [(10, 5), (20, 5), (30, 2)]) ∧
    lenInv ((IndexedView.init (0 : Int) true (α := Int)).recordAll
      [(10, 5), (20, 5)]) ∧
    bisect_left [2, 5, 5] 5 ≤ 1 := by
  obtain ⟨h1, h2, h3⟩ :=
    ascending_record_invariants (α := Int) (0 : Int) [(10, 5), (20, 5), (30, 2)]
  refine ⟨h1, h2 [(10, 5), (20, 5)] ⟨[(30, 2)], rfl⟩, ?_⟩
  exact (h3 ⟨0, true, [99, 88, 77], [2, 5, 5]⟩ 44 5 rfl
    (by rw [sortedInv]; decide)).2 1 (by decide) (by decide)

/-- C5 (code bug): `DataView.sample` is intended to map `coords` through
the coordinate mapper and return the stored snapshot's value at that
index, but its body references the unbound name `data` (the snapshot
lives in `self._data`), so after any `record` every call raises
`NameError` instead of returning a value. -/
theorem dataview_sample_name_error (s : DataView α β) (d : α)
    (mapper : γ → α → ι) (index : α → ι → δ) (coords : γ) :
    (s.record d).sample mapper index coords = .error (.nameError "data") :=
  rfl

/-- C4 (code bug): with `indexed_ascending = False` and one recorded entry
`(7, key 1)`, the slice `[0:2]` should return the mapping `{1: 7}`
(entries with `0 < key < 2`), but the filtering comprehension references
the unbound name `l` (its loop variable is `pair`), so the call raises
`NameError` whenever the container is nonempty. -/
theorem unordered_slice_name_error :
    ((IndexedView.init (0 : Int) false (α := Int)).record 7 1).getItem
      (.slice (some 0) (some 2)) = .error (.nameError "l") :=
  rfl

/-- C6 counterexample: on a freshly constructed `DataView`, `view()` does
not raise anything — it silently returns the `None` snapshot — and on a
freshly constructed `IndexedView`, `sample` silently returns the empty
sequence, contradicting the claim that both always raise an
empty-container error. -/
theorem empty_container_counterexample :
    DataView.view (DataView.init (0 : Int) (α := Int)) = (none, 0) ∧
    (IndexedView.init (0 : Int) true (α := Int)).sample
      (fun (_ : Int) (_ : Int) => (0 : Nat)) (fun _ _ => (0 : Int)) 0 = [] :=
  ⟨rfl, rfl⟩

/-- C6 amended: on a fresh `IndexedView`, `view()` raises an error (a
generic `IndexError` from `self._data[-1]`, not a dedicated
empty-container error) while `sample(coords)` silently returns the empty
sequence; on a fresh `DataView`, `view()` silently returns `(None,
bounds)` and `sample(coords)` raises only the `NameError` that every
`DataView.sample` call raises. -/
theorem empty_container_behaviour (b : β) (asc : Bool)
    (mapper : γ → α → ι) (index : α → ι → δ) (coords : γ) :
    (IndexedView.init b asc (α := α)).view = .error .indexError ∧
    (IndexedView.init b asc (α := α)).sample mapper index coords = [] ∧
    DataView.view (DataView.init b (α := α)) = (none, b) ∧
    DataView.sample (DataView.init b (α := α)) mapper index coords =
      .error (.nameError "data") :=
  ⟨rfl, rfl, rfl, rfl⟩

/-- C10: in unordered mode, a slice with a `None` endpoint fails with
`TypeError`: the comparison `start < stop` is attempted before any
filtering, and ordering `None` against anything raises (Python 3). -/
theorem unordered_slice_none_endpoint (s : IndexedView α β)
    (hasc : s.indexed_ascending = false) (a b : Option Int)
    (h : a = none ∨ b = none) :
    s.getItem (.slice a b) = .error .typeError := by
  rcases h with rfl | rfl
  · cases b with
    | none =>
      simp [IndexedView.getItem, hasc, IndexedView.unorderedSlice, Except.map]
    | some v =>
      simp [IndexedView.getItem, hasc, IndexedView.unorderedSlice, Except.map]
  · cases a with
    | none =>
      simp [IndexedView.getItem, hasc, IndexedView.unorderedSlice, Except.map]
    | some v =>
      simp [IndexedView.getItem, hasc, IndexedView.unorderedSlice, Except.map]

/-- Witness for `unordered_slice_none_endpoint` at a concrete input. -/
theorem unordered_slice_none_endpoint_witness :
    (IndexedView.init (0 : Int) false (α := Int)).getItem
      (.slice none (some 3)) = .error .typeError :=
  unordered_slice_none_endpoint _ rfl none (some 3) (Or.inl rfl)

/-- C8: `IndexedView.sample` returns one value per stored snapshot, in
stored order: the result has length `N`, and its `i`-th element is the
`i`-th snapshot indexed at the position the coordinate mapper computes
from `coords` and that snapshot itself (hence its own shape). -/
theorem indexedview_sample_spec (s : IndexedView α β) (mapper : γ → α → ι)
    (index : α → ι → δ) (coords : γ) :
    (s.sample mapper index coords).length = s._data.length ∧
    ∀ (i : Nat) (h1 : i < (s.sample mapper index coords).length)
      (h2 : i < s._data.length),
      (s.sample mapper index coords).get ⟨i, h1⟩ =
        index (s._data.get ⟨i, h2⟩) (mapper coords (s._data.get ⟨i, h2⟩)) := by
  refine ⟨by simp [IndexedView.sample], ?_⟩
  intro i h1 h2
  simp [IndexedView.sample]

/-- Witness for `indexedview_sample_spec` at a concrete input. -/
theorem indexedview_sample_spec_witness :
    ((⟨0, true, [[4, 8], [6, 2]], [1, 2]⟩ : IndexedView (List Int) Int).sample
        (fun (c : Nat) (_ : List Int) => c) (fun d i => d.getD i 0) 1).get
      ⟨0, by decide⟩ = 8 := by
  have h := (indexedview_sample_spec
    (⟨0, true, [[4, 8], [6, 2]], [1, 2]⟩ : IndexedView (List Int) Int)
    (fun (c : Nat) (_ : List Int) => c) (fun d i => d.getD i 0) 1).2 0
    (by decide) (by decide)
  rw [h]
  rfl

/-- C9: `record` is atomic: the only fallible step, `data.copy()`, is
evaluated before either list is mutated, so either the call fails and
neither parallel sequence changes, or it succeeds and both sequences gain
exactly one entry at the same position `i`. -/
theorem record_atomic (s : IndexedView α β) (copyd : Except PyErr α)
    (x : Int) (hlen : lenInv s) :
    (∃ e, s.recordE copyd x = .error e) ∨
    (∃ (s2 : IndexedView α β) (c : α) (i : Nat),
      s.recordE copyd x = .ok s2 ∧ i ≤ s._data.length ∧
      i ≤ s._index_labels.length ∧
      s2._data = pyInsert s._data i c ∧
      s2._index_labels = pyInsert s._index_labels i x ∧
      s2._data.length = s._data.length + 1 ∧
      s2._index_labels.length = s._index_labels.length + 1) := by
  rw [lenInv] at hlen
  rw [IndexedView.recordE.eq_def]
  split
  · cases copyd with
    | error e => exact Or.inl ⟨e, rfl⟩
    | ok c =>
      refine Or.inr ⟨_, c, bisect_left s._index_labels x, rfl, ?_,
        bisect_left_le_length _ _, rfl, rfl,
        pyInsert_length _ _ _, pyInsert_length _ _ _⟩
      rw [hlen]
      exact bisect_left_le_length _ _
  · cases copyd with
    | error e => exact Or.inl ⟨e, rfl⟩
    | ok c =>
      refine Or.inr ⟨_, c, s._data.length, rfl, le_refl _, by omega, ?_, ?_,
        by simp, by simp⟩
      · simp [pyInsert]
      · simp [pyInsert, hlen]

/-- Witness for `record_atomic` at a concrete input. -/
theorem record_atomic_witness :
    (∃ e, (IndexedView.init (0 : Int) true (α := Int)).recordE
      (.ok 7) 5 = .error e) ∨
    (∃ (s2 : IndexedView Int Int) (c : Int) (i : Nat),
      (IndexedView.init (0 : Int) true (α := Int)).recordE (.ok 7) 5 =
        .ok s2 ∧
      i ≤ (IndexedView.init (0 : Int) true (α := Int))._data.length ∧
      i ≤ (IndexedView.init (0 : Int) true (α := Int))._index_labels.length ∧
      s2._data =
        pyInsert (IndexedView.init (0 : Int) true (α := Int))._data i c ∧
      s2._index_labels =
        pyInsert (IndexedView.init (0 : Int) true (α := Int))._index_labels
          i 5 ∧
      s2._data.length =
        (IndexedView.init (0 : Int) true (α := Int))._data.length + 1 ∧
      s2._index_labels.length =
        (IndexedView.init (0 : Int) true (α := Int))._index_labels.length
          + 1) :=
  record_atomic _ (.ok 7) 5 rfl

theorem getD_concat_length (l : List α) (v d : α) :
    (l ++ [v]).getD l.length d = v := by
  rw [List.getD_append_right _ _ _ _ (le_refl _)]
  simp

/-- C7: in both ascending and append modes, `record` stores an independent
copy: the container stores a fresh address (`h.length`), the value there
equals the caller's object value at the moment of recording, and mutating
the caller's object afterwards leaves the stored snapshot unchanged. -/
theorem record_stores_copy [Inhabited α] (h : Heap α) (s : IndexedViewRef β)
    (addr : Nat) (x : Int) (haddr : addr < h.length) :
    h.length ∈ (IndexedView.recordHeap h s addr x).2._data ∧
    (IndexedView.recordHeap h s addr x).1.getD h.length default =
      h.getD addr default ∧
    ∀ (v : α),
      (heapSet (IndexedView.recordHeap h s addr x).1 addr v).getD h.length
        default = h.getD addr default := by
  have hset : ∀ (v : α),
      (heapSet (h ++ [h.getD addr default]) addr v).getD h.length default =
        h.getD addr default := by
    intro v
    rw [heapSet, List.set_append, if_pos haddr]
    have hl : h.length - (h.set addr v).length = 0 := by
      rw [List.length_set]
      omega
    rw [List.getD_append_right _ _ _ _ (by rw [List.length_set]), hl]
    rfl
  refine ⟨?_, ?_, ?_⟩
  · rw [IndexedView.recordHeap]
    split
    · simp [pyInsert]
    · simp
  · rw [IndexedView.recordHeap]
    split <;> exact getD_concat_length h _ default
  · intro v
    rw [IndexedView.recordHeap]
    split <;> exact hset v

theorem takeWhile_app_not (p : α → Bool) :
    ∀ (A : List α), (∀ y ∈ A, p y = true) → ∀ (b : α), p b = false →
      ∀ (B : List α), (A ++ b :: B).takeWhile p = A := by
  intro A
  induction A with
  | nil => intro _ b hb B; simp [List.takeWhile_cons, hb]
  | cons a A ih =>
    intro hA b hb B
    have ha : p a = true := hA a (by simp)
    simp only [List.cons_append, List.takeWhile_cons, ha, if_true]
    rw [ih (fun y hy => hA y (by simp [hy])) b hb B]

/-- Inserting `x` at its leftmost insertion point does not change the
leftmost insertion point. -/
theorem lowerLen_insort (a : List Int) (x : Int) :
    lowerLen (a.takeWhile (fun y => decide (y < x)) ++
      x :: a.dropWhile (fun y => decide (y < x))) x = lowerLen a x := by
  rw [lowerLen,
    takeWhile_app_not _ _ (fun y hy => List.mem_takeWhile_imp hy) x (by simp)]
  rfl

theorem getD_append_length (A : List α) (x d : α) (B : List α) :
    (A ++ x :: B).getD A.length d = x := by
  rw [List.getD_append_right _ _ _ _ (le_refl _)]
  simp

theorem get_append_length (A : List α) (x : α) (B : List α)
    (h : A.length < (A ++ x :: B).length) :
    (A ++ x :: B).get ⟨A.length, h⟩ = x := by
  rw [List.get_eq_getElem, List.getElem_append_right (le_refl _)]
  simp

/-- On a sorted list containing `k`, the leftmost insertion point is a
valid index and the element there equals `k`. -/
theorem lowerLen_found (a : List Int) (hs : a.Sorted (· ≤ ·)) (k : Int)
    (hk : k ∈ a) :
    lowerLen a k < a.length ∧ a.getD (lowerLen a k) 0 = k := by
  obtain ⟨j, hj, hjk⟩ := List.mem_iff_getElem.mp hk
  have h1 : lowerLen a k ≤ j := by
    by_contra hcon
    push_neg at hcon
    have := getD_lt_of_lt_lowerLen a k j hcon
    rw [List.getD_eq_getElem _ _ hj, hjk] at this
    omega
  have hlt : lowerLen a k < a.length := by omega
  refine ⟨hlt, ?_⟩
  have h2 : k ≤ a.getD (lowerLen a k) 0 :=
    le_getD_of_lowerLen_le a hs k _ (le_refl _) hlt
  have h3 : a.getD (lowerLen a k) 0 ≤ k := by
    rcases Nat.lt_or_ge (lowerLen a k) j with hlj | hlj
    · have hp := List.pairwise_iff_get.mp hs ⟨lowerLen a k, hlt⟩ ⟨j, hj⟩ hlj
      rw [List.getD_eq_getElem _ _ hlt]
      rw [List.get_eq_getElem, List.get_eq_getElem, hjk] at hp
      exact hp
    · have hej : lowerLen a k = j := by omega
      rw [List.getD_eq_getElem _ _ hlt]
      subst hej
      rw [hjk]
  omega

theorem bisectIndex_found (s : IndexedView α β) (hsort : sortedInv s)
    (k : Int) (hk : k ∈ s._index_labels) :
    s.bisectIndex k = .ok (lowerLen s._index_labels k) := by
  obtain ⟨hlt, hgd⟩ := lowerLen_found _ hsort k hk
  rw [IndexedView.bisectIndex, bisect_left_sorted _ _ hsort, if_pos]
  exact ⟨by omega, hgd⟩

theorem bisectIndex_missing (s : IndexedView α β) (hsort : sortedInv s)
    (k : Int) (hk : k ∉ s._index_labels) :
    s.bisectIndex k = .error .valueError := by
  rw [IndexedView.bisectIndex, bisect_left_sorted _ _ hsort, if_neg]
  intro hcon
  obtain ⟨h1, h2⟩ := hcon
  have hlt : lowerLen s._index_labels k < s._index_labels.length :=
    lt_of_le_of_ne (lowerLen_le _ _) h1
  apply hk
  rw [← h2, List.getD_eq_getElem _ _ hlt]
  exact List.getElem_mem _

theorem getItem_key_ok (s : IndexedView α β)
    (hasc : s.indexed_ascending = true) (k : Int) (i : Nat)
    (hbi : s.bisectIndex k = .ok i) (h : i < s._data.length) :
    s.getItem (.key k) = .ok (.inl (s._data.get ⟨i, h⟩)) := by
  simp only [IndexedView.getItem, hasc, if_true, hbi]
  show (if h2 : i < s._data.length then
      Except.ok (Sum.inl (s._data.get ⟨i, h2⟩))
    else Except.error PyErr.indexError) = _
  rw [dif_pos h]

theorem getItem_key_err (s : IndexedView α β)
    (hasc : s.indexed_ascending = true) (k : Int) (e : PyErr)
    (hbi : s.bisectIndex k = .error e) :
    s.getItem (.key k) = .error e := by
  simp only [IndexedView.getItem, hasc, if_true, hbi]
  rfl

/-- C3: ascending point lookup returns the snapshot at the leftmost
position whose label equals `k` (so, since sorted insertion also uses the
leftmost insertion point, lookup right after `record(d, k)` returns `d`,
the most recently inserted among duplicates of `k`), and raises
`ValueError` when no stored label equals `k`. -/
theorem indexedview_point_lookup (s : IndexedView α β)
    (hasc : s.indexed_ascending = true) (hsort : sortedInv s)
    (hlen : lenInv s) :
    (∀ k, k ∈ s._index_labels →
      ∃ (i : Nat) (h : i < s._data.length),
        s.getItem (.key k) = .ok (.inl (s._data.get ⟨i, h⟩)) ∧
        s._index_labels.getD i 0 = k ∧
        (∀ j, j < i → s._index_labels.getD j 0 ≠ k)) ∧
    (∀ k, k ∉ s._index_labels → s.getItem (.key k) = .error .valueError) ∧
    (∀ (d : α) (k : Int), (s.record d k).getItem (.key k) = .ok (.inl d)) := by
  rw [lenInv] at hlen
  rw [sortedInv] at hsort
  refine ⟨?_, ?_, ?_⟩
  · intro k hk
    obtain ⟨hlt, hgd⟩ := lowerLen_found _ hsort k hk
    have hd : lowerLen s._index_labels k < s._data.length := by omega
    refine ⟨lowerLen s._index_labels k, hd,
      getItem_key_ok s hasc k _ (bisectIndex_found s hsort k hk) hd, hgd, ?_⟩
    intro j hj
    have := getD_lt_of_lt_lowerLen s._index_labels k j hj
    omega
  · intro k hk
    exact getItem_key_err s hasc k _ (bisectIndex_missing s hsort k hk)
  · intro d k
    set c := lowerLen s._index_labels k with hc
    have hcle : c ≤ s._data.length := by
      rw [hlen]
      exact lowerLen_le _ _
    have hlab : (s.record d k)._index_labels =
        s._index_labels.takeWhile (fun y => decide (y < k)) ++
          k :: s._index_labels.dropWhile (fun y => decide (y < k)) := by
      rw [IndexedView.record, if_pos hasc]
      show pyInsert s._index_labels (bisect_left s._index_labels k) k = _
      rw [bisect_left_sorted _ _ hsort, pyInsert, take_lowerLen, drop_lowerLen]
    have hdat : (s.record d k)._data =
        s._data.take c ++ d :: s._data.drop c := by
      rw [IndexedView.record, if_pos hasc]
      show pyInsert s._data (bisect_left s._index_labels k) d = _
      rw [bisect_left_sorted _ _ hsort, pyInsert, hc]
    have hasc2 : (s.record d k).indexed_ascending = true := by
      rw [record_keeps_flag]
      exact hasc
    have hsort2 : sortedInv (s.record d k) :=
      record_sortedInv s d k hasc hsort
    have hmem : k ∈ (s.record d k)._index_labels := by
      rw [hlab]
      exact List.mem_append_right _ (List.mem_cons_self _ _)
    have hll : lowerLen (s.record d k)._index_labels k = c := by
      rw [hlab, lowerLen_insort]
    have htl : (s._data.take c).length = c := by
      rw [List.length_take]
      omega
    have hd2 : lowerLen (s.record d k)._index_labels k <
        (s.record d k)._data.length := by
      rw [hll, hdat]
      simp only [List.length_append, List.length_cons, List.length_take,
        List.length_drop]
      omega
    rw [getItem_key_ok (s.record d k) hasc2 k _
      (bisectIndex_found _ hsort2 k hmem) hd2]
    have hgd : (s.record d k)._data.get
        ⟨lowerLen (s.record d k)._index_labels k, hd2⟩ =
        (s.record d k)._data.getD (lowerLen (s.record d k)._index_labels k)
          d := by
      rw [List.getD_eq_getElem _ _ hd2]
      rfl
    have h2 := getD_append_length (s._data.take c) d d (s._data.drop c)
    rw [htl] at h2
    rw [hgd, hll, hdat, h2]

/-- Witness for `record_stores_copy` at a concrete input. -/
theorem record_stores_copy_witness :
    ([(42 : Int)] : Heap Int).length ∈
      (IndexedView.recordHeap [(42 : Int)]
        (⟨0, true, [], []⟩ : IndexedViewRef Int) 0 1).2._data ∧
    (IndexedView.recordHeap [(42 : Int)]
        (⟨0, true, [], []⟩ : IndexedViewRef Int) 0 1).1.getD
      ([(42 : Int)] : Heap Int).length default =
      ([(42 : Int)] : Heap Int).getD 0 default ∧
    ∀ (v : Int),
      (heapSet (IndexedView.recordHeap [(42 : Int)]
          (⟨0, true, [], []⟩ : IndexedViewRef Int) 0 1).1 0 v).getD
        ([(42 : Int)] : Heap Int).length default =
        ([(42 : Int)] : Heap Int).getD 0 default :=
  record_stores_copy [(42 : Int)] ⟨0, true, [], []⟩ 0 1 (by decide)

/-- Witness for `indexedview_point_lookup` at concrete inputs. -/
theorem indexedview_point_lookup_witness :
    ((⟨0, true, [10, 20], [1, 2]⟩ : IndexedView Int Int).getItem (.key 3) =
      .error .valueError) ∧
    (((⟨0, true, [10, 20], [1, 2]⟩ : IndexedView Int Int).record 30 2).getItem
      (.key 2) = .ok (.inl 30)) := by
  have h := indexedview_point_lookup
    (⟨0, true, [10, 20], [1, 2]⟩ : IndexedView Int Int) rfl
    (by rw [sortedInv]; decide) rfl
  exact ⟨h.2.1 3 (by decide), h.2.2 30 2⟩

/-- On a sorted list of keys, slicing both parallel lists between the
natural index bounds and zipping the results selects exactly the pairs
whose key passes both bound tests. -/
theorem slice_zip_filter (a b : Option Int) :
    ∀ (L : List Int) (D : List α), L.Sorted (· ≤ ·) → L.length = D.length →
      ((L.take (natUB b L)).drop (natLB a L)).zip
        ((D.take (natUB b L)).drop (natLB a L)) =
      (L.zip D).filter (fun p => lbOk a p.1 && ubOk b p.1) := by
  intro L
  induction L with
  | nil =>
    intro D _ hlen
    cases D with
    | nil => simp
    | cons y D => simp at hlen
  | cons x L ih =>
    intro D hs hlen
    cases D with
    | nil => simp at hlen
    | cons y D =>
      rw [List.sorted_cons] at hs
      have hlen2 : L.length = D.length := by simpa using hlen
      by_cases hub : ubOk b x = true
      · have hU : natUB b (x :: L) = natUB b L + 1 := by
          cases b with
          | none => simp [natUB]
          | some v =>
            have hxv : decide (x < v) = true := by simpa [ubOk] using hub
            simp [natUB, lowerLen, List.takeWhile_cons, hxv]
        by_cases hlb : lbOk a x = true
        · have hA : natLB a (x :: L) = 0 := by
            cases a with
            | none => rfl
            | some v =>
              have hvx : v ≤ x := by simpa [lbOk] using hlb
              have hno : decide (x < v) = false := by
                simp only [decide_eq_false_iff_not]
                omega
              simp [natLB, lowerLen, List.takeWhile_cons, hno]
          have hA2 : natLB a L = 0 := by
            cases a with
            | none => rfl
            | some v =>
              have hvx : v ≤ x := by simpa [lbOk] using hlb
              cases L with
              | nil => rfl
              | cons z L2 =>
                have hz : x ≤ z := hs.1 z (by simp)
                have hno : decide (z < v) = false := by
                  simp only [decide_eq_false_iff_not]
                  omega
                simp [natLB, lowerLen, List.takeWhile_cons, hno]
          rw [hU, hA, List.take_succ_cons, List.take_succ_cons,
            List.drop_zero, List.drop_zero, List.zip_cons_cons,
            List.zip_cons_cons, List.filter_cons]
          simp only [hlb, hub, Bool.and_self, if_true]
          have hrec := ih D hs.2 hlen2
          rw [hA2, List.drop_zero, List.drop_zero] at hrec
          rw [hrec]
        · have hA : natLB a (x :: L) = natLB a L + 1 := by
            cases a with
            | none => simp [lbOk] at hlb
            | some v =>
              have hvx : ¬ v ≤ x := by simpa [lbOk] using hlb
              have hyes : decide (x < v) = true := by
                simp only [decide_eq_true_eq]
                omega
              simp [natLB, lowerLen, List.takeWhile_cons, hyes]
          rw [hU, hA, List.take_succ_cons, List.take_succ_cons,
            List.drop_succ_cons, List.drop_succ_cons, List.zip_cons_cons,
            List.filter_cons]
          simp only [hlb, Bool.false_and, Bool.false_eq_true, if_false]
          exact ih D hs.2 hlen2
      · have hU : natUB b (x :: L) = 0 := by
          cases b with
          | none => simp [ubOk] at hub
          | some v =>
            have hvx : decide (x < v) = false := by
              rw [decide_eq_false_iff_not]
              simpa [ubOk] using hub
            simp [natUB, lowerLen, List.takeWhile_cons, hvx]
        rw [hU]
        simp only [List.take_zero, List.drop_nil, List.zip_nil_left]
        symm
        rw [List.filter_eq_nil_iff]
        intro p hp
        cases b with
        | none => simp [ubOk] at hub
        | some v =>
          have hvx : ¬ x < v := by simpa [ubOk] using hub
          rw [List.zip_cons_cons] at hp
          rcases List.mem_cons.mp hp with rfl | hp2
          · simp only [ubOk, Bool.and_eq_true, decide_eq_true_eq]
            intro hcon
            exact hvx hcon.2
          · have hp1 : p.1 ∈ L := by
              obtain ⟨p1, p2⟩ := p
              exact (List.of_mem_zip hp2).1
            have hxp : x ≤ p.1 := hs.1 _ hp1
            simp only [ubOk, Bool.and_eq_true, decide_eq_true_eq]
            intro hcon
            omega

theorem odFold_nodup :
    ∀ (Z acc : List (Int × α)),
      (acc.map Prod.fst ++ Z.map Prod.fst).Nodup →
      Z.foldl (fun m p => odInsert m p.1 p.2) acc = acc ++ Z := by
  intro Z
  induction Z with
  | nil => intro acc _; simp
  | cons p Z ih =>
    intro acc hnd
    obtain ⟨k, v⟩ := p
    have hk : k ∉ acc.map Prod.fst := by
      simp only [List.map_cons] at hnd
      have hd := List.disjoint_of_nodup_append hnd
      intro hmem
      exact hd hmem (by simp)
    have hins : odInsert acc k v = acc ++ [(k, v)] := by
      rw [odInsert, if_neg]
      intro hany
      rw [List.any_eq_true] at hany
      obtain ⟨q, hq, hqk⟩ := hany
      apply hk
      have hq1 : q.1 = k := by simpa using hqk
      rw [← hq1]
      exact List.mem_map_of_mem _ hq
    rw [List.foldl_cons]
    show List.foldl _ (odInsert acc k v) Z = _
    rw [hins, ih (acc ++ [(k, v)])
      (by simpa [List.map_append, List.append_assoc] using hnd)]
    simp

/-- `OrderedDict` construction is the identity on a pair list whose keys
are pairwise distinct. -/
theorem odOfPairs_nodup (Z : List (Int × α))
    (h : (Z.map Prod.fst).Nodup) : odOfPairs Z = Z := by
  have hfold := odFold_nodup Z [] (by simpa using h)
  simpa [odOfPairs] using hfold

/-- `_bisect_slice` on a sorted, aligned container computes the ordered
mapping of the key-filtered zip of the parallel lists. -/
theorem bisectSlice_eq (s : IndexedView α β) (hsort : sortedInv s)
    (hlen : lenInv s) (a b : Option Int) :
    s.bisectSlice a b =
      odOfPairs ((s._index_labels.zip s._data).filter
        (fun p => lbOk a p.1 && ubOk b p.1)) := by
  rw [sortedInv] at hsort
  rw [lenInv] at hlen
  rw [IndexedView.bisectSlice]
  have hL : pySliceExtract s._index_labels
      (a.map (fun v => bisect_left s._index_labels v))
      (b.map (fun v => bisect_left s._index_labels v)) =
      (s._index_labels.take (natUB b s._index_labels)).drop
        (natLB a s._index_labels) := by
    cases a <;> cases b <;>
      simp [pySliceExtract, natLB, natUB, bisect_left_sorted _ _ hsort]
  have hD : pySliceExtract s._data
      (a.map (fun v => bisect_left s._index_labels v))
      (b.map (fun v => bisect_left s._index_labels v)) =
      (s._data.take (natUB b s._index_labels)).drop
        (natLB a s._index_labels) := by
    cases a <;> cases b <;>
      simp [pySliceExtract, natLB, natUB, bisect_left_sorted _ _ hsort, hlen]
  rw [hL, hD, slice_zip_filter a b _ _ hsort hlen.symm]

/-- C2 (amended: all stored keys pairwise distinct): an ascending-mode
slice `[a:b]` (step `None`) returns the ordered mapping of exactly the
stored entries whose key `k` satisfies `a <= k < b`, in ascending key
order; a `None` start means no lower bound and a `None` stop means no
upper bound (`lbOk`/`ubOk`). -/
theorem ascending_slice_spec (s : IndexedView α β)
    (hasc : s.indexed_ascending = true) (hsort : sortedInv s)
    (hlen : lenInv s) (hnd : s._index_labels.Nodup) (a b : Option Int) :
    s.getItem (.slice a b) =
      .ok (.inr ((s._index_labels.zip s._data).filter
        (fun p => lbOk a p.1 && ubOk b p.1))) ∧
    (((s._index_labels.zip s._data).filter
        (fun p => lbOk a p.1 && ubOk b p.1)).map Prod.fst).Sorted
      (· ≤ ·) := by
  have hsubL : List.Sublist
      (((s._index_labels.zip s._data).filter
        (fun p => lbOk a p.1 && ubOk b p.1)).map Prod.fst)
      ((s._index_labels.zip s._data).map Prod.fst) :=
    (List.filter_sublist _).map _
  have hmapfst : (s._index_labels.zip s._data).map Prod.fst =
      s._index_labels := by
    apply List.map_fst_zip
    rw [lenInv] at hlen
    omega
  rw [hmapfst] at hsubL
  constructor
  · simp only [IndexedView.getItem, hasc, if_true]
    rw [bisectSlice_eq s hsort hlen a b, odOfPairs_nodup _ (hnd.sublist hsubL)]
  · rw [sortedInv] at hsort
    exact List.Pairwise.sublist hsubL hsort

/-- Witness for `ascending_slice_spec` at a concrete input. -/
theorem ascending_slice_spec_witness :
    (⟨0, true, [10, 20, 30], [1, 2, 3]⟩ : IndexedView Int Int).getItem
      (.slice (some 1) (some 3)) = .ok (.inr [(1, 10), (2, 20)]) := by
  have h := (ascending_slice_spec
    (⟨0, true, [10, 20, 30], [1, 2, 3]⟩ : IndexedView Int Int) rfl
    (by rw [sortedInv]; decide) rfl (by decide) (some 1) (some 3)).1
  rw [h]
  rfl

/-- C2 counterexample: with two entries recorded at the duplicate key `5`
(data `10` then `20`), every stored key lies in `[0, 9)`, yet the slice
`[0:9]` returns an ordered mapping with a single entry — `OrderedDict`
collapses duplicate keys — so the result does not contain exactly the
stored entries in range (which are `(5, 20)` and `(5, 10)`). -/
theorem ascending_slice_counterexample :
    (((IndexedView.init (0 : Int) true).recordAll
      [((10 : Int), (5 : Int)), (20, 5)]).getItem
        (.slice (some 0) (some 9)) = .ok (.inr [(5, 10)])) ∧
    ((((IndexedView.init (0 : Int) true).recordAll
        [((10 : Int), (5 : Int)), (20, 5)])._index_labels.zip
        ((IndexedView.init (0 : Int) true).recordAll
          [((10 : Int), (5 : Int)), (20, 5)])._data).filter
      (fun p => lbOk (some 0) p.1 && ubOk (some 9) p.1) =
      [(5, 20), (5, 10)]) ∧
    ([((5 : Int), (10 : Int))] ≠ [(5, 20), (5, 10)]) :=
  ⟨rfl, rfl, by decide⟩

end Imagen
